import Mathlib

/-!
# Verification of the in-memory shell (VFS / CLI dispatcher / line editor)

Shallow embedding of the core of the repository:

* `VFS` (src/terminal/vfs.ts, in `Terminal.tsx` bundle): path resolution,
  `getNode`, `mkdir`, `writeFile`, `readFile`, `rm` over the in-memory file
  tree.  JS strings are modelled as `List Char`; a JS `Map` (insertion
  ordered, unique keys) is modelled as an association list with
  first-occurrence lookup, in-place first-occurrence update, and
  append-if-absent insertion — exactly the observable behaviour of `Map`.
  The `parent` back-pointer of `FileNode` is not modelled: the source only
  ever reaches a parent through `getNode(parentPath)`, never through the
  back-pointer, so a plain tree with functional update at the looked-up
  path is an exact model of the heap mutation.  `createdAt`/`modifiedAt`
  timestamps and the cosmetic `permissions`/`owner`/`group` strings are
  dropped; no claim mentions them.
* `CLI` (src/terminal/cli.ts, `part_000`): `tokenize`, `parseInput`,
  `execute`.  The anchored regular expressions of `execute` are modelled
  operationally (see `assignMatch`); command handlers are opaque, so
  `execute` returns either a terminal status together with the error lines
  written to the output sink, or a description of the handler invocation
  it would perform.
* `FakeShell` (src/terminal/shell.ts, bundled in `history.ts`): the line
  editor state machine `handleInput` / `executeCommand` over the editor
  state (buffer, cursor, history, history index, processing flag).
  Terminal writes are pure output and do not affect this state; the
  completion source `cli.complete` is passed in as an opaque function.
-/

namespace FakeTerm

/-- JS strings are sequences of code units; modelled as lists of characters. -/
abbrev Str := List Char

/-- Shorthand to turn a Lean string literal into the model type. -/
def str (s : String) : Str := s.data

/-- The characters removed by JS `String.prototype.trim` and matched by
the regex class `\s` (WhiteSpace plus LineTerminator). -/
def jsWhitespace (c : Char) : Bool :=
  c = ' ' ∨ c = '\t' ∨ c = '\n' ∨ c = '\x0b' ∨ c = '\x0c' ∨ c = '\r' ∨
  c = Char.ofNat 0xa0 ∨ c = Char.ofNat 0x1680 ∨
  (Char.ofNat 0x2000 ≤ c ∧ c ≤ Char.ofNat 0x200a) ∨
  c = Char.ofNat 0x2028 ∨ c = Char.ofNat 0x2029 ∨
  c = Char.ofNat 0x202f ∨ c = Char.ofNat 0x205f ∨
  c = Char.ofNat 0x3000 ∨ c = Char.ofNat 0xfeff

/-- JS line terminators (the characters `.` does not match). -/
def jsLineTerm (c : Char) : Bool :=
  c = '\n' ∨ c = '\r' ∨ c = Char.ofNat 0x2028 ∨ c = Char.ofNat 0x2029

/-- JS `String.prototype.trim`. -/
def jsTrim (s : Str) : Str :=
  ((s.dropWhile jsWhitespace).reverse.dropWhile jsWhitespace).reverse

/-- JS `String.prototype.split` with a single-character separator. -/
def splitOnChar (sep : Char) : Str → List Str
  | [] => [[]]
  | c :: rest =>
    let r := splitOnChar sep rest
    if c = sep then [] :: r
    else (c :: r.headD []) :: r.tail

/-- Join segments with `'/'` (inverse of splitting a slash-free family). -/
def joinSlash : List Str → Str
  | [] => []
  | [s] => s
  | s :: rest => s ++ '/' :: joinSlash rest

/-- The path `'/' + segs.join('/')` — the shape of every normalized path. -/
def mkPath (segs : List Str) : Str := '/' :: joinSlash segs

/-- Index of the last occurrence of a character (JS `lastIndexOf`,
with `none` for `-1`). -/
def lastIndexOfChar (t : Char) : Str → Option Nat
  | [] => none
  | c :: rest =>
    match lastIndexOfChar t rest with
    | some i => some (i + 1)
    | none => if c = t then some 0 else none



/-! ## VFS data model -/

inductive FileType where
  | file
  | directory
deriving DecidableEq, Repr

/-- A node of the virtual file tree (`FileNode` in `types.ts`), without the
`parent` back-pointer, timestamps and cosmetic metadata (see the header
comment).  `children` models the insertion-ordered JS `Map`. -/
inductive FileNode where
  | mk (type : FileType) (name : Str) (content : Str)
      (children : List (Str × FileNode))

def FileNode.type : FileNode → FileType
  | .mk t _ _ _ => t

def FileNode.name : FileNode → Str
  | .mk _ n _ _ => n

def FileNode.content : FileNode → Str
  | .mk _ _ c _ => c

def FileNode.children : FileNode → List (Str × FileNode)
  | .mk _ _ _ cs => cs

def FileNode.withChildren : FileNode → List (Str × FileNode) → FileNode
  | .mk t n c _, cs => .mk t n c cs

/-- JS `Map.prototype.get` / JS object property read
(unique keys, so first match). -/
def mapGet {α : Type} (cs : List (Str × α)) (k : Str) : Option α :=
  match cs with
  | [] => none
  | (k', v) :: rest => if k' = k then some v else mapGet rest k

/-- JS `Map.prototype.has`. -/
def mapHas {α : Type} (cs : List (Str × α)) (k : Str) : Bool :=
  (mapGet cs k).isSome

/-- JS `Map.prototype.set` / JS object property write:
replace in place if present, else append. -/
def mapSet {α : Type} (cs : List (Str × α)) (k : Str) (v : α) :
    List (Str × α) :=
  match cs with
  | [] => [(k, v)]
  | (k', v') :: rest =>
    if k' = k then (k, v) :: rest else (k', v') :: mapSet rest k v

/-- JS `Map.prototype.delete` (at most one occurrence in a real `Map`). -/
def mapDelete {α : Type} (cs : List (Str × α)) (k : Str) :
    List (Str × α) :=
  match cs with
  | [] => []
  | (k', v') :: rest =>
    if k' = k then rest else (k', v') :: mapDelete rest k

/-- Mutate the value stored under `k` in place (models mutating the node
object obtained from `Map.get`). -/
def mapModify {α : Type} (cs : List (Str × α)) (k : Str)
    (f : α → α) : List (Str × α) :=
  match cs with
  | [] => []
  | (k', v') :: rest =>
    if k' = k then (k', f v') :: rest else (k', v') :: mapModify rest k f

/-- Model of `createNode` of `vfs.ts` (content defaults to the empty string). -/
def createNode (t : FileType) (name : Str) (content : Str := []) : FileNode :=
  .mk t name content []

/-- VFS state: the root node plus the current working directory string. -/
structure VFSState where
  root : FileNode
  currentPath : Str

/-! ## Path resolution (`resolvePath` / `normalizePath`) -/

/-- The filter of `normalizePath`: `parts.filter(p => p && p !== '.')`. -/
def keepPart (s : Str) : Bool := ¬ s.isEmpty ∧ s ≠ str "."

/-- One step of `normalizePath`'s loop: `..` pops, others push. -/
def normStep (acc : List Str) (part : Str) : List Str :=
  if part = str ".." then acc.dropLast else acc ++ [part]

/-- The retained segments of `normalizePath`. -/
def normSegs (path : Str) : List Str :=
  ((splitOnChar '/' path).filter keepPart).foldl normStep []

/-- Model of `VFS.normalizePath`: split on `/`, drop empties and `.`, pop on `..`,
rejoin under the root. -/
def normalizePath (path : Str) : Str := mkPath (normSegs path)

/-- Model of `VFS.resolvePath` (`path.startsWith('/')` is `path.take 1 = "/"`). -/
def resolvePath (st : VFSState) (path : Str) : Str :=
  if path.isEmpty ∨ path = str "~" then str "/home/guest"
  else if path.take 1 = str "/" then normalizePath path
  else normalizePath (st.currentPath ++ '/' :: path)

/-! ## Node lookup and functional update -/

/-- The walking loop of `VFS.getNode`. -/
def getNodeAux (n : FileNode) : List Str → Option FileNode
  | [] => some n
  | s :: rest =>
    match mapGet n.children s with
    | none => none
    | some c => getNodeAux c rest

/-- The segment list `VFS.getNode` walks for a given path
(`resolvedPath.split('/').filter(Boolean)`, empty for the root). -/
def lookupSegs (st : VFSState) (path : Str) : List Str :=
  let r := resolvePath st path
  if r = str "/" then []
  else (splitOnChar '/' r).filter (fun s => ¬ s.isEmpty)

/-- Model of `VFS.getNode`. -/
def getNode (st : VFSState) (path : Str) : Option FileNode :=
  let r := resolvePath st path
  if r = str "/" then some st.root
  else getNodeAux st.root ((splitOnChar '/' r).filter (fun s => ¬ s.isEmpty))

/-- Functional update of the node sitting at a segment path: models the JS
in-place mutation of the node object `getNode` returned.  If the path does
not exist the tree is returned unchanged (the JS code never mutates in
that situation: it checks the lookup first). -/
def updateAt (n : FileNode) : List Str → (FileNode → FileNode) → FileNode
  | [], f => f n
  | s :: rest, f =>
    n.withChildren (mapModify n.children s (fun c => updateAt c rest f))

/-- Split a resolved path into the source's
`substring(0, lastIndexOf('/')) || '/'` and
`substring(lastIndexOf('/') + 1)` pair. -/
def splitParent (resolved : Str) : Str × Str :=
  match lastIndexOfChar '/' resolved with
  | some i =>
    let pre := resolved.take i
    (if pre.isEmpty then str "/" else pre, resolved.drop (i + 1))
  | none => (str "/", resolved)

/-! ## VFS operations -/

/-- Model of `VFS.mkdir`. -/
def VFS.mkdir (st : VFSState) (path : Str) : Bool × VFSState :=
  let resolved := resolvePath st path
  let pp := splitParent resolved
  let parentPath := pp.1
  let dirName := pp.2
  match getNode st parentPath with
  | none => (false, st)
  | some parent =>
    if parent.type = .directory then
      if mapHas parent.children dirName then (false, st)
      else
        let newDir := createNode .directory dirName
        let root' := updateAt st.root (lookupSegs st parentPath)
          (fun p => p.withChildren (mapSet p.children dirName newDir))
        (true, ⟨root', st.currentPath⟩)
    else (false, st)

/-- Model of `VFS.writeFile`. -/
def VFS.writeFile (st : VFSState) (path content : Str) : Bool × VFSState :=
  let resolved := resolvePath st path
  let pp := splitParent resolved
  let parentPath := pp.1
  let fileName := pp.2
  match getNode st parentPath with
  | none => (false, st)
  | some parent =>
    if parent.type = .directory then
      match mapGet parent.children fileName with
      | some existing =>
        if existing.type = .file then
          let root' := updateAt st.root (lookupSegs st parentPath)
            (fun p => p.withChildren (mapModify p.children fileName
              (fun ex => FileNode.mk ex.type ex.name content ex.children)))
          (true, ⟨root', st.currentPath⟩)
        else (false, st)
      | none =>
        let newFile := createNode .file fileName content
        let root' := updateAt st.root (lookupSegs st parentPath)
          (fun p => p.withChildren (mapSet p.children fileName newFile))
        (true, ⟨root', st.currentPath⟩)
    else (false, st)

/-- Model of `VFS.readFile`. -/
def VFS.readFile (st : VFSState) (path : Str) : Option Str :=
  match getNode st path with
  | none => none
  | some n => if n.type = .file then some n.content else none

/-- Model of `VFS.rm`. -/
def VFS.rm (st : VFSState) (path : Str) (recursive : Bool) :
    Bool × VFSState :=
  let resolved := resolvePath st path
  let pp := splitParent resolved
  let parentPath := pp.1
  let name := pp.2
  match getNode st parentPath, getNode st resolved with
  | some _parent, some node =>
    if node.type = .directory ∧ ¬ node.children.isEmpty ∧ recursive = false then
      (false, st)
    else
      let root' := updateAt st.root (lookupSegs st parentPath)
        (fun p => p.withChildren (mapDelete p.children name))
      (true, ⟨root', st.currentPath⟩)
  | _, _ => (false, st)

/-! ## The freshly initialized VFS (`constructor` + `initDefaultStructure`) -/

/-- The VFS state right after the constructor ran: root directory with empty
name, the standard directory skeleton, `/home/guest` as working directory
and the sample files. -/
def VFS.init : VFSState :=
  let st0 : VFSState := ⟨createNode .directory [], str "/"⟩
  let st1 := (VFS.mkdir st0 (str "/bin")).2
  let st2 := (VFS.mkdir st1 (str "/etc")).2
  let st3 := (VFS.mkdir st2 (str "/home")).2
  let st4 := (VFS.mkdir st3 (str "/tmp")).2
  let st5 := (VFS.mkdir st4 (str "/usr")).2
  let st6 := (VFS.mkdir st5 (str "/var")).2
  let st7 := (VFS.mkdir st6 (str "/root")).2
  let st8 := (VFS.mkdir st7 (str "/proc")).2
  let st9 := (VFS.mkdir st8 (str "/home/guest")).2
  let st10 : VFSState := ⟨st9.root, str "/home/guest"⟩
  let st11 := (VFS.writeFile st10 (str "/etc/hostname") (str "midrai\n")).2
  let st12 := (VFS.writeFile st11 (str "/etc/motd")
    (str "Welcome to Midrai Terminal!\n")).2
  let st13 := (VFS.writeFile st12 (str "/home/guest/.bashrc")
    (str "# .bashrc\nexport PS1=\"\\u@\\h:\\w\\$ \"\n")).2
  (VFS.writeFile st13 (str "/home/guest/readme.txt")
    (str "Welcome to the fake terminal!\n\nTry typing some commands like:\n  ls, cd, pwd, cat, echo, mkdir, touch, rm\n")).2

/-! ## CLI: tokenizer and input parser -/

/-- The double-quote character. -/
def dq : Char := Char.ofNat 34

/-- The single-quote character. -/
def sq : Char := Char.ofNat 39

/-- The backslash character. -/
def bs : Char := Char.ofNat 92

/-- The loop of `CLI.tokenize` with its four pieces of loop state. -/
def tokenizeGo (cs : Str) (tokens : List Str) (current : Str)
    (inQuote : Option Char) (escaped : Bool) : List Str :=
  match cs with
  | [] => if current.isEmpty then tokens else tokens ++ [current]
  | c :: rest =>
    if escaped then tokenizeGo rest tokens (current ++ [c]) inQuote false
    else if c = bs then tokenizeGo rest tokens current inQuote true
    else if c = dq ∨ c = sq then
      match inQuote with
      | none => tokenizeGo rest tokens current (some c) escaped
      | some q =>
        if q = c then tokenizeGo rest tokens current none escaped
        else tokenizeGo rest tokens (current ++ [c]) inQuote escaped
    else if c = ' ' ∧ inQuote = none then
      if current.isEmpty then tokenizeGo rest tokens current inQuote escaped
      else tokenizeGo rest (tokens ++ [current]) [] inQuote escaped
    else tokenizeGo rest tokens (current ++ [c]) inQuote escaped

/-- Model of `CLI.tokenize`. -/
def tokenize (input : Str) : List Str := tokenizeGo input [] [] none false

/-- JS `Set.prototype.add`: append if not already present. -/
def setAdd (s : List Str) (x : Str) : List Str :=
  if x ∈ s then s else s ++ [x]

/-- The token-classification loop of `CLI.parseInput`. -/
def parseLoop : List Str → List Str → List Str → List Str × List Str
  | [], args, flags => (args, flags)
  | t :: rest, args, flags =>
    if t.take 2 = str "--" then
      parseLoop rest args (setAdd flags (t.drop 2))
    else if t.take 1 = str "-" ∧ 1 < t.length then
      parseLoop rest args ((t.drop 1).foldl (fun fl c => setAdd fl [c]) flags)
    else parseLoop rest (args ++ [t]) flags

/-- Result of `CLI.parseInput`.  `flags` models the JS `Set` as the list of
its elements in insertion order. -/
structure ParsedInput where
  command : Str
  args : List Str
  flags : List Str
deriving DecidableEq, Repr

/-- Model of `CLI.parseInput`. -/
def parseInput (input : Str) : ParsedInput :=
  let tokens := tokenize input
  let p := parseLoop tokens.tail [] []
  ⟨tokens.headD [], p.1, p.2⟩

/-! ## CLI: dispatch (`CLI.execute`) -/

/-- First character of an identifier: `[A-Za-z_]`. -/
def identStart (c : Char) : Bool :=
  ('A' ≤ c ∧ c ≤ 'Z') ∨ ('a' ≤ c ∧ c ≤ 'z') ∨ c = '_'

/-- Identifier continuation character: `[A-Za-z0-9_]`. -/
def identChar (c : Char) : Bool := identStart c ∨ ('0' ≤ c ∧ c ≤ '9')

/-- Full match of `^[A-Za-z_][A-Za-z0-9_]*$`. -/
def isIdent (s : Str) : Bool :=
  match s with
  | [] => false
  | c :: rest => identStart c ∧ rest.all identChar

/-- Operational model of matching the anchored regex
`^([A-Za-z_][A-Za-z0-9_]*)=(\S+)\s+(.+)$` against the already-trimmed
line.  The three sub-patterns cannot overlap (`\S` excludes exactly what
`\s` accepts, and an identifier run always stops at `=`), and on a trimmed
string the final whitespace run is never at the end, so greedy matching
needs no backtracking; `(.+)$` additionally forbids line terminators in
the remainder. -/
def assignMatch (t : Str) : Option (Str × Str × Str) :=
  match t with
  | [] => none
  | c :: rest =>
    if identStart c then
      let name := c :: rest.takeWhile identChar
      match rest.dropWhile identChar with
      | '=' :: afterEq =>
        let value := afterEq.takeWhile (fun d => ¬ jsWhitespace d)
        let afterVal := afterEq.dropWhile (fun d => ¬ jsWhitespace d)
        if value.isEmpty then none
        else
          let ws := afterVal.takeWhile jsWhitespace
          let rem := afterVal.dropWhile jsWhitespace
          if ws.isEmpty then none
          else if ¬ rem.isEmpty ∧ rem.all (fun d => ¬ jsLineTerm d) then
            some (name, value, rem)
          else none
      | _ => none
    else none

/-- Model of `replace(/["']/g, '')`. -/
def stripQuotes (s : Str) : Str := s.filter (fun c => c ≠ dq ∧ c ≠ sq)

/-- Model of `rest.join('=')` for the persistent-assignment branch. -/
def joinEq : List Str → Str
  | [] => []
  | [s] => s
  | s :: rest => s ++ '=' :: joinEq rest

/-- What `CLI.execute` does with one raw line, up to the (opaque) command
handlers: either it returns a status itself — carrying the error lines it
wrote to the output sink and the possibly-updated global environment — or
it builds a context and invokes the named handler. -/
inductive ExecResult where
  | ret (status : Nat) (errors : List Str) (env : List (Str × Str))
  | invoke (cmd : Str) (args : List Str) (flags : List Str)
      (localEnv : List (Str × Str)) (env : List (Str × Str))
deriving DecidableEq, Repr

/-- Model of `CLI.execute`, with the command registry abstracted to the list of
registered command names (`this.commands.keys()`). -/
def CLI.execute (commands : List Str) (env : List (Str × Str))
    (input : Str) : ExecResult :=
  let trimmed := jsTrim input
  if trimmed.isEmpty then .ret 0 [] env
  else
    let m := assignMatch trimmed
    let localEnv : List (Str × Str) :=
      match m with
      | some (n, v, _) => [(n, v)]
      | none => []
    let commandLine :=
      match m with
      | some (_, _, r) => r
      | none => trimmed
    let p := parseInput commandLine
    if p.command.isEmpty then .ret 0 [] env
    else
      let assigned : Option (List (Str × Str)) :=
        if trimmed.contains '=' ∧ ¬ identStart (trimmed.headD ' ') then
          let parts := splitOnChar '=' trimmed
          let varName := parts.headD []
          let rest := parts.tail
          if ¬ rest.isEmpty ∧ isIdent varName then
            some (mapSet env varName (stripQuotes (joinEq rest)))
          else none
        else none
      match assigned with
      | some env' => .ret 0 [] env'
      | none =>
        if p.command ∈ commands then
          .invoke p.command p.args p.flags localEnv env
        else .ret 127 [p.command ++ str ": command not found"] env

/-- The names registered by `getBuiltInCommands()` (commands/index.ts). -/
def builtinNames : List Str :=
  [str "ls", str "cd", str "pwd", str "cat", str "echo", str "mkdir",
   str "touch", str "rm", str "clear", str "help", str "whoami",
   str "date", str "history"]

/-! ## FakeShell line editor -/

/-- The editor state owned by `FakeShell`: input buffer, cursor offset,
committed command history, history browsing index (`-1` = not browsing)
and the re-entrancy flag.  The VFS/CLI/prompt objects live elsewhere and
are never touched by the buffer/cursor/history handlers; terminal writes
are pure output. -/
structure ShellState where
  inputBuffer : Str
  cursorPosition : Nat
  commandHistory : List Str
  historyIndex : Int
  isProcessing : Bool
deriving DecidableEq, Repr

/-- Editor state of a freshly constructed `FakeShell`. -/
def ShellState.init : ShellState := ⟨[], 0, [], -1, false⟩

/-- Model of `FakeShell.insertChar` (cursor always advances by one, whatever the
length of the inserted fragment). -/
def insertChar (st : ShellState) (char : Str) : ShellState :=
  { st with
    inputBuffer := st.inputBuffer.take st.cursorPosition ++ char ++
      st.inputBuffer.drop st.cursorPosition,
    cursorPosition := st.cursorPosition + 1 }

/-- Model of `FakeShell.handleBackspace`. -/
def handleBackspace (st : ShellState) : ShellState :=
  if 0 < st.cursorPosition then
    { st with
      inputBuffer := st.inputBuffer.take (st.cursorPosition - 1) ++
        st.inputBuffer.drop st.cursorPosition,
      cursorPosition := st.cursorPosition - 1 }
  else st

/-- Model of `FakeShell.handleDelete`. -/
def handleDelete (st : ShellState) : ShellState :=
  if st.cursorPosition < st.inputBuffer.length then
    { st with
      inputBuffer := st.inputBuffer.take st.cursorPosition ++
        st.inputBuffer.drop (st.cursorPosition + 1) }
  else st

/-- Model of `FakeShell.handleCursorLeft` (the terminal-movement write is output
only). -/
def handleCursorLeft (st : ShellState) : ShellState :=
  if 0 < st.cursorPosition then
    { st with cursorPosition := st.cursorPosition - 1 }
  else st

/-- Model of `FakeShell.handleCursorRight`. -/
def handleCursorRight (st : ShellState) : ShellState :=
  if st.cursorPosition < st.inputBuffer.length then
    { st with cursorPosition := st.cursorPosition + 1 }
  else st

/-- Model of `FakeShell.handleHome`. -/
def handleHome (st : ShellState) : ShellState :=
  { st with cursorPosition := 0 }

/-- Model of `FakeShell.handleEnd`. -/
def handleEnd (st : ShellState) : ShellState :=
  { st with cursorPosition := st.inputBuffer.length }

/-- Model of `FakeShell.handleHistoryUp`.  The array read
`commandHistory[length - 1 - historyIndex]` is modelled with `getD`; under
the state invariant the index is always in range, exactly when the JS read
is defined. -/
def handleHistoryUp (st : ShellState) : ShellState :=
  if st.historyIndex < (st.commandHistory.length : Int) - 1 then
    let idx := st.historyIndex + 1
    let buf := st.commandHistory.getD
      ((st.commandHistory.length : Int) - 1 - idx).toNat []
    { st with
      historyIndex := idx,
      inputBuffer := buf,
      cursorPosition := buf.length }
  else st

/-- Model of `FakeShell.handleHistoryDown`. -/
def handleHistoryDown (st : ShellState) : ShellState :=
  if 0 < st.historyIndex then
    let idx := st.historyIndex - 1
    let buf := st.commandHistory.getD
      ((st.commandHistory.length : Int) - 1 - idx).toNat []
    { st with
      historyIndex := idx,
      inputBuffer := buf,
      cursorPosition := buf.length }
  else if st.historyIndex = 0 then
    { st with historyIndex := -1, inputBuffer := [], cursorPosition := 0 }
  else st

/-- Model of `FakeShell.handleTab`, with `this.cli.complete` passed in as an opaque
completion source (the multi-candidate branch only prints). -/
def handleTab (complete : Str → List Str) (st : ShellState) : ShellState :=
  let completions := complete st.inputBuffer
  if completions.length = 1 then
    let buf :=
      match lastIndexOfChar ' ' st.inputBuffer with
      | none => completions.headD [] ++ [' ']
      | some k => st.inputBuffer.take (k + 1) ++ completions.headD []
    { st with inputBuffer := buf, cursorPosition := buf.length }
  else st

/-- Model of `FakeShell.clearLine`. -/
def clearLine (st : ShellState) : ShellState :=
  { st with inputBuffer := [], cursorPosition := 0 }

/-- Model of `FakeShell.executeCommand`, restricted to its effect on the editor
state.  `cli.execute` runs between the history append and the buffer
reset and only touches the VFS/environment/terminal; on the literal
`exit` line the method returns before the buffer reset.  `isProcessing`
is raised and lowered around the (synchronously modelled) execution, so
it is false again on return. -/
def executeCommand (st : ShellState) : ShellState :=
  let command := jsTrim st.inputBuffer
  if ¬ command.isEmpty then
    let hist := st.commandHistory ++ [command]
    if command = str "exit" then
      { st with commandHistory := hist, historyIndex := -1 }
    else
      { inputBuffer := [], cursorPosition := 0, commandHistory := hist,
        historyIndex := -1, isProcessing := false }
  else
    { st with inputBuffer := [], cursorPosition := 0 }

/-- The escape character `\x1B`. -/
def esc : Char := Char.ofNat 27

/-- Model of `FakeShell.handleInput`: dispatch of one raw input event. -/
def handleInput (complete : Str → List Str) (data : Str)
    (st : ShellState) : ShellState :=
  if st.isProcessing then st
  else if data = str "\r" then executeCommand st
  else if data = [Char.ofNat 0x7f] ∨ data = [Char.ofNat 8] then
    handleBackspace st
  else if data = esc :: str "[3~" then handleDelete st
  else if data = esc :: str "[A" then handleHistoryUp st
  else if data = esc :: str "[B" then handleHistoryDown st
  else if data = esc :: str "[C" then handleCursorRight st
  else if data = esc :: str "[D" then handleCursorLeft st
  else if data = esc :: str "[H" ∨ data = [Char.ofNat 1] then handleHome st
  else if data = esc :: str "[F" ∨ data = [Char.ofNat 5] then handleEnd st
  else if data = [Char.ofNat 12] then st
  else if data = str "\t" then handleTab complete st
  else if data = [Char.ofNat 21] then clearLine st
  else
    match data with
    | [] => st
    | c :: rest =>
      if 32 ≤ c.toNat ∨ ¬ rest.isEmpty then insertChar st data else st


/-! ## Auxiliary predicates and claim-side definitions -/

/-- A usable path segment: what `normalizePath` can ever emit. -/
def goodSeg (s : Str) : Prop :=
  s ≠ [] ∧ s ≠ str "." ∧ s ≠ str ".." ∧ '/' ∉ s

/-- All segments usable. -/
def goodSegs (l : List Str) : Prop := ∀ s ∈ l, goodSeg s

/-- Keys of a child map are pairwise distinct (every JS `Map` satisfies
this; association lists that violate it do not model any heap state). -/
def nodupKeysB (cs : List (Str × FileNode)) : Bool :=
  decide (cs.map Prod.fst).Nodup

mutual
/-- Well-formed tree: every child map has pairwise-distinct keys. -/
def FileNode.wf : FileNode → Bool
  | .mk _ _ _ cs => nodupKeysB cs && FileNode.wfChildren cs
/-- Conjunction of `FileNode.wf` over a child list. -/
def FileNode.wfChildren : List (Str × FileNode) → Bool
  | [] => true
  | (_, c) :: rest => c.wf && FileNode.wfChildren rest
end

mutual
/-- Every child is stored under its own `name` (true of every tree the
VFS operations build). -/
def FileNode.namesOk : FileNode → Bool
  | .mk _ _ _ cs => FileNode.namesOkChildren cs
/-- Conjunction of `FileNode.namesOk` over a child list. -/
def FileNode.namesOkChildren : List (Str × FileNode) → Bool
  | [] => true
  | (k, c) :: rest =>
    decide (k = c.name) && c.namesOk && FileNode.namesOkChildren rest
end

/-- The directory node with empty name that `mkdir('/')` inserts. -/
def phantomDir : FileNode := createNode .directory []

/-- The test `path resolves to a non-empty directory` as a decidable test. -/
def isNonemptyDir (o : Option FileNode) : Bool :=
  match o with
  | some n => n.type = .directory ∧ ¬ n.children.isEmpty
  | none => false

/-- The command name `CLI.execute` dispatches for a raw line: the first
token of the line after trimming and after the one-shot
`NAME=value rest` override has been stripped. -/
def dispatchedCommand (input : Str) : Str :=
  let trimmed := jsTrim input
  let commandLine :=
    match assignMatch trimmed with
    | some (_, _, r) => r
    | none => trimmed
  (parseInput commandLine).command

/-- Claim-side classification of one token (C7): `--name` or `-xyz`. -/
def isFlagToken (t : Str) : Bool :=
  t.take 2 = str "--" ∨ (t.take 1 = str "-" ∧ 1 < t.length)

/-- Claim-side flag accumulation (C7), from a starting set. -/
def claimFlagsFrom (flags : List Str) : List Str → List Str
  | [] => flags
  | t :: rest =>
    if t.take 2 = str "--" then
      claimFlagsFrom (setAdd flags (t.drop 2)) rest
    else if t.take 1 = str "-" ∧ 1 < t.length then
      claimFlagsFrom ((t.drop 1).foldl (fun fl c => setAdd fl [c]) flags) rest
    else claimFlagsFrom flags rest

/-- Claim-side restatement of normalization (C4): split on `/`, drop empty
and `.` segments, pop the last retained segment for each `..` (popping
past the root a no-op), rebuild an absolute path. -/
def claimNormalize (p : Str) : Str :=
  let parts := (splitOnChar '/' p).filter (fun s => ¬ s.isEmpty ∧ s ≠ str ".")
  mkPath (parts.foldl
    (fun acc part => if part = str ".." then acc.dropLast else acc ++ [part])
    [])

/-- The global environment an `ExecResult` carries back. -/
def execEnv : ExecResult → List (Str × Str)
  | .ret _ _ e => e
  | .invoke _ _ _ _ e => e

/-- The line-editor state invariant of claim C10 (the lower bound
`0 ≤ cursorPosition` is carried by the `Nat` type: every decrement in the
source is guarded by a positivity test, mirrored by the guarded `Nat`
subtraction). -/
def EditorInv (st : ShellState) : Prop :=
  st.cursorPosition ≤ st.inputBuffer.length ∧
  -1 ≤ st.historyIndex ∧
  st.historyIndex ≤ (st.commandHistory.length : Int) - 1

/-! ## Lemmas: splitting and joining paths -/

theorem splitOnChar_nil (sep : Char) : splitOnChar sep [] = [[]] := rfl

theorem splitOnChar_sep (sep : Char) (r : Str) :
    splitOnChar sep (sep :: r) = [] :: splitOnChar sep r := by
  simp [splitOnChar]

theorem splitOnChar_cons_ne (sep c : Char) (r : Str) (h : c ≠ sep) :
    splitOnChar sep (c :: r) =
      (c :: (splitOnChar sep r).headD []) :: (splitOnChar sep r).tail := by
  simp [splitOnChar, h]

theorem splitOnChar_ne_nil (sep : Char) (s : Str) :
    splitOnChar sep s ≠ [] := by
  cases s with
  | nil => simp [splitOnChar]
  | cons c r =>
    by_cases h : c = sep
    · subst h; simp [splitOnChar_sep]
    · simp [splitOnChar_cons_ne sep c r h]

theorem splitOnChar_no_sep (sep : Char) (s : Str) (h : sep ∉ s) :
    splitOnChar sep s = [s] := by
  induction s with
  | nil => rfl
  | cons c r ih =>
    have hc : c ≠ sep := fun hx => h (hx ▸ List.mem_cons_self c r)
    have hr : sep ∉ r := fun hx => h (List.mem_cons_of_mem c hx)
    rw [splitOnChar_cons_ne sep c r hc, ih hr]
    rfl

theorem splitOnChar_append (sep : Char) (a b : Str) (h : sep ∉ a) :
    splitOnChar sep (a ++ sep :: b) = a :: splitOnChar sep b := by
  induction a with
  | nil => simp [splitOnChar_sep]
  | cons c r ih =>
    have hc : c ≠ sep := fun hx => h (hx ▸ List.mem_cons_self c r)
    have hr : sep ∉ r := fun hx => h (List.mem_cons_of_mem c hx)
    rw [List.cons_append, splitOnChar_cons_ne sep c _ hc, ih hr]
    rfl

theorem not_mem_of_mem_splitOnChar (sep : Char) (s chunk : Str)
    (h : chunk ∈ splitOnChar sep s) : sep ∉ chunk := by
  induction s generalizing chunk with
  | nil =>
    simp [splitOnChar] at h
    simp [h]
  | cons c r ih =>
    by_cases hc : c = sep
    · subst hc
      rw [splitOnChar_sep] at h
      rcases List.mem_cons.mp h with h1 | h1
      · simp [h1]
      · exact ih chunk h1
    · rw [splitOnChar_cons_ne sep c r hc] at h
      rcases List.mem_cons.mp h with h1 | h1
      · subst h1
        intro hmem
        rcases List.mem_cons.mp hmem with h2 | h2
        · exact hc h2.symm
        · rcases hs : splitOnChar sep r with _ | ⟨hd, tl⟩
          · exact splitOnChar_ne_nil sep r hs
          · have : hd ∈ splitOnChar sep r := by rw [hs]; exact List.mem_cons_self hd tl
            have := ih hd this
            rw [hs] at h2
            exact this h2
      · rcases hs : splitOnChar sep r with _ | ⟨hd, tl⟩
        · exact absurd hs (splitOnChar_ne_nil sep r)
        · rw [hs] at h1
          exact ih chunk (by rw [hs]; exact List.mem_cons_of_mem hd h1)

theorem joinSlash_cons_of_ne_nil (s : Str) (rest : List Str)
    (h : rest ≠ []) : joinSlash (s :: rest) = s ++ '/' :: joinSlash rest := by
  cases rest with
  | nil => exact absurd rfl h
  | cons t ts => rfl

theorem splitOnChar_joinSlash (segs : List Str) (h0 : segs ≠ [])
    (h : ∀ s ∈ segs, '/' ∉ s) :
    splitOnChar '/' (joinSlash segs) = segs := by
  induction segs with
  | nil => exact absurd rfl h0
  | cons s rest ih =>
    cases rest with
    | nil =>
      exact splitOnChar_no_sep '/' s (h s (List.mem_cons_self s []))
    | cons t ts =>
      rw [joinSlash_cons_of_ne_nil s (t :: ts) (by simp)]
      rw [splitOnChar_append '/' s _ (h s (List.mem_cons_self s _))]
      rw [ih (by simp) (fun x hx => h x (List.mem_cons_of_mem s hx))]

/-! ## Lemmas: normalized path shape -/

theorem splitOnChar_mkPath (segs : List Str) (h0 : segs ≠ [])
    (h : ∀ s ∈ segs, '/' ∉ s) :
    splitOnChar '/' (mkPath segs) = [] :: segs := by
  rw [mkPath, splitOnChar_sep, splitOnChar_joinSlash segs h0 h]

theorem mkPath_nil : mkPath [] = str "/" := rfl

theorem mkPath_eq_root_iff (segs : List Str) (h : goodSegs segs) :
    mkPath segs = str "/" ↔ segs = [] := by
  constructor
  · intro he
    cases segs with
    | nil => rfl
    | cons s rest =>
      exfalso
      have hs : s ≠ [] := (h s (List.mem_cons_self s rest)).1
      cases rest with
      | nil =>
        cases s with
        | nil => exact hs rfl
        | cons c cs => simp [mkPath, joinSlash, str] at he
      | cons t ts =>
        rw [mkPath, joinSlash_cons_of_ne_nil s (t :: ts) (by simp)] at he
        cases s with
        | nil => exact hs rfl
        | cons c cs => simp [str] at he
  · intro he
    subst he
    rfl

theorem filter_keepPart_mkPath (segs : List Str) (h : goodSegs segs) :
    (splitOnChar '/' (mkPath segs)).filter keepPart = segs := by
  cases hs : segs with
  | nil => rfl
  | cons s rest =>
    rw [← hs, splitOnChar_mkPath segs (by rw [hs]; simp)
      (fun x hx => (h x hx).2.2.2)]
    have h1 : keepPart ([] : Str) = false := rfl
    rw [List.filter_cons_of_neg (by simp [h1])]
    apply List.filter_eq_self.mpr
    intro a ha
    have := h a ha
    simp [keepPart, this.1, this.2.1, List.isEmpty_iff]

theorem filter_nonempty_mkPath (segs : List Str) (h : goodSegs segs) :
    (splitOnChar '/' (mkPath segs)).filter (fun s => ¬ s.isEmpty) = segs := by
  cases hs : segs with
  | nil => rfl
  | cons s rest =>
    rw [← hs, splitOnChar_mkPath segs (by rw [hs]; simp)
      (fun x hx => (h x hx).2.2.2)]
    rw [List.filter_cons_of_neg (by simp)]
    apply List.filter_eq_self.mpr
    intro a ha
    have := h a ha
    simp [this.1, List.isEmpty_iff]

theorem goodSegs_foldl_normStep (parts : List Str) (acc : List Str)
    (hp : ∀ s ∈ parts, s ≠ [] ∧ s ≠ str "." ∧ '/' ∉ s)
    (ha : goodSegs acc) : goodSegs (parts.foldl normStep acc) := by
  induction parts generalizing acc with
  | nil => exact ha
  | cons p rest ih =>
    rw [List.foldl_cons]
    apply ih
    · exact fun s hs => hp s (List.mem_cons_of_mem p hs)
    · unfold normStep
      by_cases hdd : p = str ".."
      · rw [if_pos hdd]
        exact fun s hs => ha s (List.dropLast_subset _ hs)
      · rw [if_neg hdd]
        intro s hs
        rcases List.mem_append.mp hs with h1 | h1
        · exact ha s h1
        · have hsp := List.mem_singleton.mp h1
          subst hsp
          have := hp s (List.mem_cons_self s rest)
          exact ⟨this.1, this.2.1, hdd, this.2.2⟩

theorem foldl_normStep_no_dotdot (parts : List Str) (acc : List Str)
    (hp : ∀ s ∈ parts, s ≠ str "..") :
    parts.foldl normStep acc = acc ++ parts := by
  induction parts generalizing acc with
  | nil => simp
  | cons p rest ih =>
    have hstep : normStep acc p = acc ++ [p] := by
      unfold normStep
      rw [if_neg (hp p (List.mem_cons_self p rest))]
    rw [List.foldl_cons, hstep,
      ih _ (fun s hs => hp s (List.mem_cons_of_mem p hs))]
    simp

theorem goodSegs_normSegs (p : Str) : goodSegs (normSegs p) := by
  unfold normSegs
  apply goodSegs_foldl_normStep
  · intro s hs
    have h1 := List.of_mem_filter hs
    have h2 := List.mem_of_mem_filter hs
    have h3 := not_mem_of_mem_splitOnChar '/' p s h2
    unfold keepPart at h1
    simp only [decide_eq_true_eq] at h1
    exact ⟨by simpa [List.isEmpty_iff] using h1.1, h1.2, h3⟩
  · intro s hs
    simp at hs

theorem normalizePath_mkPath (segs : List Str) (h : goodSegs segs) :
    normalizePath (mkPath segs) = mkPath segs := by
  unfold normalizePath normSegs
  rw [filter_keepPart_mkPath segs h]
  rw [foldl_normStep_no_dotdot segs [] (fun s hs => (h s hs).2.2.1),
    List.nil_append]

theorem resolvePath_form (st : VFSState) (p : Str) :
    ∃ segs, goodSegs segs ∧ resolvePath st p = mkPath segs := by
  unfold resolvePath
  by_cases h1 : p.isEmpty ∨ p = str "~"
  · rw [if_pos h1]
    refine ⟨[str "home", str "guest"], ?_, rfl⟩
    intro s hs
    rcases List.mem_cons.mp hs with h | h
    · subst h
      exact ⟨by simp [str], by simp [str], by simp [str], by simp [str]⟩
    · have h2 := List.mem_singleton.mp h
      subst h2
      exact ⟨by simp [str], by simp [str], by simp [str], by simp [str]⟩
  · rw [if_neg h1]
    by_cases h2 : p.take 1 = str "/"
    · rw [if_pos h2]
      exact ⟨normSegs p, goodSegs_normSegs p, rfl⟩
    · rw [if_neg h2]
      exact ⟨normSegs (st.currentPath ++ '/' :: p), goodSegs_normSegs _, rfl⟩

/-! ## Lemmas: idempotence of resolution -/

theorem resolvePath_mkPath (st : VFSState) (segs : List Str)
    (h : goodSegs segs) : resolvePath st (mkPath segs) = mkPath segs := by
  unfold resolvePath
  rw [if_neg, if_pos]
  · exact normalizePath_mkPath segs h
  · rfl
  · intro hx
    rcases hx with hx | hx
    · simp [mkPath] at hx
    · have : (mkPath segs).headD ' ' = (str "~").headD ' ' := by rw [hx]
      simp [mkPath, str] at this

theorem resolvePath_resolvePath (st : VFSState) (p : Str) :
    resolvePath st (resolvePath st p) = resolvePath st p := by
  obtain ⟨segs, hg, he⟩ := resolvePath_form st p
  rw [he, resolvePath_mkPath st segs hg]

theorem getNode_resolvePath (st : VFSState) (p : Str) :
    getNode st (resolvePath st p) = getNode st p := by
  unfold getNode
  rw [resolvePath_resolvePath]

theorem lookupSegs_resolvePath (st : VFSState) (p : Str) :
    lookupSegs st (resolvePath st p) = lookupSegs st p := by
  unfold lookupSegs
  rw [resolvePath_resolvePath]

theorem resolvePath_only_currentPath (r1 r2 : FileNode) (cwd p : Str) :
    resolvePath ⟨r1, cwd⟩ p = resolvePath ⟨r2, cwd⟩ p := rfl

theorem lookupSegs_mkPath (st : VFSState) (segs : List Str)
    (h : goodSegs segs) : lookupSegs st (mkPath segs) = segs := by
  unfold lookupSegs
  rw [resolvePath_mkPath st segs h]
  by_cases h0 : segs = []
  · subst h0
    rfl
  · rw [if_neg (fun hx => h0 ((mkPath_eq_root_iff segs h).mp hx))]
    exact filter_nonempty_mkPath segs h

theorem getNode_eq_aux (st : VFSState) (p : Str) :
    getNode st p = getNodeAux st.root (lookupSegs st p) := by
  unfold getNode lookupSegs
  by_cases h : resolvePath st p = str "/"
  · rw [if_pos h, if_pos h]
    rfl
  · rw [if_neg h, if_neg h]

/-! ## Lemmas: splitting a normalized path at its last slash -/

theorem lastIndexOfChar_cons (t c : Char) (r : Str) :
    lastIndexOfChar t (c :: r) =
      match lastIndexOfChar t r with
      | some i => some (i + 1)
      | none => if c = t then some 0 else none := rfl

theorem lastIndexOfChar_of_not_mem (t : Char) (s : Str) (h : t ∉ s) :
    lastIndexOfChar t s = none := by
  induction s with
  | nil => rfl
  | cons c r ih =>
    rw [lastIndexOfChar_cons, ih (fun hx => h (List.mem_cons_of_mem c hx))]
    exact if_neg (fun hx => h (by rw [← hx]; exact List.mem_cons_self c r))

theorem lastIndexOfChar_append_last (t : Char) (a b : Str) (h : t ∉ b) :
    lastIndexOfChar t (a ++ t :: b) = some a.length := by
  induction a with
  | nil =>
    rw [List.nil_append, lastIndexOfChar_cons,
      lastIndexOfChar_of_not_mem t b h]
    simp
  | cons c r ih =>
    rw [List.cons_append, lastIndexOfChar_cons, ih]
    simp

theorem joinSlash_append_last (init : List Str) (l : Str)
    (h : init ≠ []) :
    joinSlash (init ++ [l]) = joinSlash init ++ '/' :: l := by
  induction init with
  | nil => exact absurd rfl h
  | cons s rest ih =>
    cases rest with
    | nil => rfl
    | cons t ts =>
      rw [List.cons_append,
        joinSlash_cons_of_ne_nil s ((t :: ts) ++ [l]) (by simp),
        joinSlash_cons_of_ne_nil s (t :: ts) (by simp), ih (by simp)]
      simp

theorem mkPath_append_last (init : List Str) (l : Str) :
    mkPath (init ++ [l]) =
      (if init = [] then [] else mkPath init) ++ '/' :: l := by
  by_cases h : init = []
  · subst h
    rw [if_pos rfl]
    rfl
  · rw [if_neg h, mkPath, joinSlash_append_last init l h]
    rfl

theorem splitParent_eq_of_some (s : Str) (i : Nat)
    (h : lastIndexOfChar '/' s = some i) :
    splitParent s =
      (if (s.take i).isEmpty then str "/" else s.take i, s.drop (i + 1)) := by
  unfold splitParent
  rw [h]

theorem splitParent_mkPath (init : List Str) (l : Str)
    (hg : goodSegs (init ++ [l])) :
    splitParent (mkPath (init ++ [l])) = (mkPath init, l) := by
  have hl : '/' ∉ l := (hg l (by simp)).2.2.2
  by_cases h : init = []
  · subst h
    have h0 : lastIndexOfChar '/' (mkPath ([] ++ [l])) = some 0 := by
      rw [mkPath_append_last, if_pos rfl, List.nil_append]
      exact lastIndexOfChar_append_last '/' [] l hl
    rw [splitParent_eq_of_some _ 0 h0]
    rw [mkPath_append_last, if_pos rfl, List.nil_append]
    simp [mkPath, joinSlash, str]
  · have h0 : lastIndexOfChar '/' (mkPath (init ++ [l]))
        = some (mkPath init).length := by
      rw [mkPath_append_last, if_neg h]
      exact lastIndexOfChar_append_last '/' (mkPath init) l hl
    rw [splitParent_eq_of_some _ _ h0]
    rw [mkPath_append_last, if_neg h]
    have htake : (mkPath init ++ '/' :: l).take (mkPath init).length
        = mkPath init := List.take_left _ _
    have hdrop : (mkPath init ++ '/' :: l).drop ((mkPath init).length + 1)
        = l := by
      have he : mkPath init ++ '/' :: l = (mkPath init ++ ['/']) ++ l := by
        simp
      have hlen : (mkPath init).length + 1 = (mkPath init ++ ['/']).length := by
        simp
      rw [he, hlen, List.drop_left]
    rw [htake, hdrop]
    have hne : (mkPath init).isEmpty = false := by simp [mkPath]
    simp [hne]

/-! ## Lemmas: association-list maps and tree update -/

theorem mapGet_mapModify_self {α : Type} (cs : List (Str × α)) (k : Str)
    (f : α → α) : mapGet (mapModify cs k f) k = (mapGet cs k).map f := by
  induction cs with
  | nil => rfl
  | cons hd rest ih =>
    obtain ⟨k1, v1⟩ := hd
    by_cases h : k1 = k
    · subst h
      simp [mapModify, mapGet]
    · simp [mapModify, mapGet, h, ih]

theorem mapGet_mapSet_self {α : Type} (cs : List (Str × α)) (k : Str)
    (v : α) : mapGet (mapSet cs k v) k = some v := by
  induction cs with
  | nil => simp [mapSet, mapGet]
  | cons hd rest ih =>
    obtain ⟨k1, v1⟩ := hd
    by_cases h : k1 = k
    · subst h
      simp [mapSet, mapGet]
    · simp [mapSet, mapGet, h, ih]

theorem mapGet_mem {α : Type} (cs : List (Str × α)) (k : Str) (v : α)
    (h : mapGet cs k = some v) : (k, v) ∈ cs := by
  induction cs with
  | nil => simp [mapGet] at h
  | cons hd rest ih =>
    obtain ⟨k1, v1⟩ := hd
    by_cases h1 : k1 = k
    · subst h1
      simp [mapGet] at h
      simp [h]
    · simp [mapGet, h1] at h
      exact List.mem_cons_of_mem _ (ih h)

theorem mapGet_eq_none_of_not_mem {α : Type} (cs : List (Str × α)) (k : Str)
    (h : k ∉ cs.map Prod.fst) : mapGet cs k = none := by
  induction cs with
  | nil => rfl
  | cons hd rest ih =>
    obtain ⟨k1, v1⟩ := hd
    rw [List.map_cons, List.mem_cons] at h
    push_neg at h
    simp [mapGet, Ne.symm h.1]
    exact ih h.2

theorem mapGet_mapDelete_self {α : Type} (cs : List (Str × α)) (k : Str)
    (h : (cs.map Prod.fst).Nodup) : mapGet (mapDelete cs k) k = none := by
  induction cs with
  | nil => rfl
  | cons hd rest ih =>
    obtain ⟨k1, v1⟩ := hd
    rw [List.map_cons, List.nodup_cons] at h
    by_cases h1 : k1 = k
    · subst h1
      simp [mapDelete]
      exact mapGet_eq_none_of_not_mem rest k1 h.1
    · simp [mapDelete, h1, mapGet]
      exact ih h.2

theorem children_withChildren (n : FileNode) (cs : List (Str × FileNode)) :
    (n.withChildren cs).children = cs := by
  cases n
  rfl

theorem getNodeAux_cons (n : FileNode) (s : Str) (rest : List Str) :
    getNodeAux n (s :: rest) =
      match mapGet n.children s with
      | none => none
      | some c => getNodeAux c rest := rfl

theorem getNodeAux_append (n : FileNode) (a b : List Str) :
    getNodeAux n (a ++ b) = (getNodeAux n a).bind (fun m => getNodeAux m b) := by
  induction a generalizing n with
  | nil => simp [getNodeAux]
  | cons s rest ih =>
    rw [List.cons_append, getNodeAux_cons, getNodeAux_cons]
    cases mapGet n.children s with
    | none => rfl
    | some c => exact ih c

theorem getNodeAux_updateAt (n : FileNode) (segs : List Str)
    (f : FileNode → FileNode) (p : FileNode)
    (h : getNodeAux n segs = some p) :
    getNodeAux (updateAt n segs f) segs = some (f p) := by
  induction segs generalizing n with
  | nil =>
    simp [getNodeAux] at h
    subst h
    rfl
  | cons s rest ih =>
    rw [getNodeAux_cons] at h
    cases hg : mapGet n.children s with
    | none => rw [hg] at h; exact absurd h (by simp)
    | some c =>
      rw [hg] at h
      have hu : updateAt n (s :: rest) f =
          n.withChildren (mapModify n.children s
            (fun d => updateAt d rest f)) := rfl
      rw [hu, getNodeAux_cons, children_withChildren,
        mapGet_mapModify_self, hg]
      exact ih c h

/-! ## Lemmas: well-formedness -/

theorem wfChildren_mem (cs : List (Str × FileNode)) (k : Str) (c : FileNode)
    (hwf : FileNode.wfChildren cs = true) (hm : (k, c) ∈ cs) :
    c.wf = true := by
  induction cs with
  | nil => simp at hm
  | cons hd rest ih =>
    obtain ⟨k1, c1⟩ := hd
    rw [FileNode.wfChildren] at hwf
    rcases List.mem_cons.mp hm with h1 | h1
    · obtain ⟨he1, he2⟩ := Prod.mk.injEq .. ▸ h1
      cases h1
      exact (Bool.and_eq_true_iff.mp hwf).1
    · exact ih (Bool.and_eq_true_iff.mp hwf).2 h1

theorem wf_children_nodup (n : FileNode) (h : n.wf = true) :
    (n.children.map Prod.fst).Nodup := by
  cases n with
  | mk t nm ct cs =>
    rw [FileNode.wf] at h
    have := (Bool.and_eq_true_iff.mp h).1
    rw [nodupKeysB] at this
    exact of_decide_eq_true this

theorem wf_wfChildren (n : FileNode) (h : n.wf = true) :
    FileNode.wfChildren n.children = true := by
  cases n with
  | mk t nm ct cs =>
    rw [FileNode.wf] at h
    exact (Bool.and_eq_true_iff.mp h).2

theorem wf_getNodeAux (n : FileNode) (segs : List Str) (m : FileNode)
    (hwf : n.wf = true) (h : getNodeAux n segs = some m) : m.wf = true := by
  induction segs generalizing n with
  | nil =>
    simp [getNodeAux] at h
    subst h
    exact hwf
  | cons s rest ih =>
    rw [getNodeAux_cons] at h
    cases hg : mapGet n.children s with
    | none => rw [hg] at h; exact absurd h (by simp)
    | some c =>
      rw [hg] at h
      have hc : c.wf = true :=
        wfChildren_mem n.children s c (wf_wfChildren n hwf)
          (mapGet_mem n.children s c hg)
      exact ih c hc h

/-! ## Lemmas: state-independence of resolution from the root -/

theorem resolvePath_eq_of_currentPath (st1 st2 : VFSState)
    (h : st1.currentPath = st2.currentPath) (p : Str) :
    resolvePath st1 p = resolvePath st2 p := by
  unfold resolvePath
  rw [h]

theorem lookupSegs_eq_of_currentPath (st1 st2 : VFSState)
    (h : st1.currentPath = st2.currentPath) (p : Str) :
    lookupSegs st1 p = lookupSegs st2 p := by
  unfold lookupSegs
  rw [resolvePath_eq_of_currentPath st1 st2 h]

theorem lookupSegs_eq (st : VFSState) (p : Str) (segs : List Str)
    (hg : goodSegs segs) (hres : resolvePath st p = mkPath segs) :
    lookupSegs st p = segs := by
  unfold lookupSegs
  rw [hres]
  by_cases h0 : segs = []
  · subst h0
    rfl
  · rw [if_neg (fun hx => h0 ((mkPath_eq_root_iff segs hg).mp hx))]
    exact filter_nonempty_mkPath segs hg

/-- C2, amended.  Whenever `rm` reports success for a path that does not
resolve to the root `/`, the node is detached (`getNode` finds nothing
afterwards); and `rm` without `recursive` refuses a non-empty directory,
leaving the state untouched.  The root case is excluded because
`rm('/', true)` returns `true` after deleting the nonexistent `""` entry
of the root's child map (see the counterexample). -/
theorem rm_spec (st : VFSState) (p : Str) (r : Bool)
    (hwf : st.root.wf = true) :
    ((VFS.rm st p r).1 = true → resolvePath st p ≠ str "/" →
      getNode (VFS.rm st p r).2 p = none) ∧
    (isNonemptyDir (getNode st p) = true → VFS.rm st p false = (false, st)) := by
  constructor
  · intro htrue hroot
    obtain ⟨segs, hg, hres⟩ := resolvePath_form st p
    have hsegs_ne : segs ≠ [] := by
      intro h0
      exact hroot (by rw [hres, h0]; rfl)
    obtain ⟨init, l, rfl⟩ : ∃ init l, segs = init ++ [l] :=
      ⟨segs.dropLast, segs.getLast hsegs_ne,
        (List.dropLast_append_getLast hsegs_ne).symm⟩
    have hgi : goodSegs init := fun s hs => hg s (List.mem_append_left _ hs)
    have hsp : splitParent (resolvePath st p) = (mkPath init, l) := by
      rw [hres]
      exact splitParent_mkPath init l hg
    have hrm : VFS.rm st p r =
        match getNode st (mkPath init), getNode st (resolvePath st p) with
        | some _, some node =>
          if node.type = .directory ∧ ¬ node.children.isEmpty ∧ r = false then
            (false, st)
          else
            (true, ⟨updateAt st.root (lookupSegs st (mkPath init))
              (fun q => q.withChildren (mapDelete q.children l)),
              st.currentPath⟩)
        | _, _ => (false, st) := by
      simp only [VFS.rm, hsp]
    rw [hrm] at htrue ⊢
    split at htrue
    next parent node hpar hnode =>
      split at htrue
      next hguard => simp at htrue
      next hguard =>
        have hparent_aux : getNodeAux st.root init = some parent := by
          rw [← lookupSegs_mkPath st init hgi, ← getNode_eq_aux]
          exact hpar
        have hwf_parent : parent.wf = true :=
          wf_getNodeAux st.root init parent hwf hparent_aux
        set newRoot := updateAt st.root (lookupSegs st (mkPath init))
          (fun q => q.withChildren (mapDelete q.children l)) with hnewRoot
        have hnew_aux : getNodeAux newRoot init =
            some (parent.withChildren (mapDelete parent.children l)) := by
          rw [hnewRoot, lookupSegs_mkPath st init hgi]
          exact getNodeAux_updateAt st.root init _ parent hparent_aux
        have hlk : lookupSegs (⟨newRoot, st.currentPath⟩ : VFSState) p
            = init ++ [l] := by
          rw [lookupSegs_eq_of_currentPath ⟨newRoot, st.currentPath⟩ st rfl]
          exact lookupSegs_eq st p (init ++ [l]) hg hres
        rw [if_neg hguard, getNode_eq_aux, hlk]
        show getNodeAux newRoot (init ++ [l]) = none
        rw [getNodeAux_append, hnew_aux]
        show getNodeAux (parent.withChildren (mapDelete parent.children l))
          [l] = none
        rw [getNodeAux_cons, children_withChildren,
          mapGet_mapDelete_self parent.children l
            (wf_children_nodup parent hwf_parent)]
    next a b hne => simp at htrue
  · intro hdir
    cases hnode : getNode st p with
    | none => rw [hnode] at hdir; simp [isNonemptyDir] at hdir
    | some node =>
      rw [hnode] at hdir
      have hnd : node.type = .directory ∧ ¬ node.children.isEmpty := by
        have := of_decide_eq_true hdir
        exact this
      have hrm : VFS.rm st p false =
          match getNode st ((splitParent (resolvePath st p)).1),
              getNode st (resolvePath st p) with
          | some _, some nd =>
            if nd.type = .directory ∧ ¬ nd.children.isEmpty ∧ false = false then
              (false, st)
            else
              (true, ⟨updateAt st.root
                (lookupSegs st ((splitParent (resolvePath st p)).1))
                (fun q => q.withChildren
                  (mapDelete q.children ((splitParent (resolvePath st p)).2))),
                st.currentPath⟩)
          | _, _ => (false, st) := by
        simp only [VFS.rm]
      rw [hrm, getNode_resolvePath, hnode]
      cases getNode st ((splitParent (resolvePath st p)).1) with
      | none => rfl
      | some parent =>
        dsimp only
        rw [if_pos ⟨hnd.1, hnd.2, rfl⟩]

/-- C5, amended.  A successful `writeFile(p, s)` is read back verbatim by
`readFile(p)`, for every path that does not resolve to the root `/`.  The
root is excluded: `writeFile('/', s)` reports success after storing a
file under the empty name in the root's child map, yet `readFile('/')`
sees the root directory and yields null (see the counterexample). -/
theorem writeFile_readFile (st : VFSState) (p s : Str)
    (hroot : resolvePath st p ≠ str "/")
    (hw : (VFS.writeFile st p s).1 = true) :
    VFS.readFile (VFS.writeFile st p s).2 p = some s := by
  obtain ⟨segs, hg, hres⟩ := resolvePath_form st p
  have hsegs_ne : segs ≠ [] := by
    intro h0
    exact hroot (by rw [hres, h0]; rfl)
  obtain ⟨init, l, rfl⟩ : ∃ init l, segs = init ++ [l] :=
    ⟨segs.dropLast, segs.getLast hsegs_ne,
      (List.dropLast_append_getLast hsegs_ne).symm⟩
  have hgi : goodSegs init := fun a ha => hg a (List.mem_append_left _ ha)
  have hsp : splitParent (resolvePath st p) = (mkPath init, l) := by
    rw [hres]
    exact splitParent_mkPath init l hg
  have hwr : VFS.writeFile st p s =
      match getNode st (mkPath init) with
      | none => (false, st)
      | some parent =>
        if parent.type = .directory then
          match mapGet parent.children l with
          | some existing =>
            if existing.type = .file then
              (true, ⟨updateAt st.root (lookupSegs st (mkPath init))
                (fun q => q.withChildren (mapModify q.children l
                  (fun ex => FileNode.mk ex.type ex.name s ex.children))),
                st.currentPath⟩)
            else (false, st)
          | none =>
            (true, ⟨updateAt st.root (lookupSegs st (mkPath init))
              (fun q => q.withChildren (mapSet q.children l
                (createNode .file l s))),
              st.currentPath⟩)
        else (false, st) := by
    simp only [VFS.writeFile, hsp]
  rw [hwr] at hw ⊢
  split at hw
  next hpar => simp at hw
  next parent hpar =>
    split at hw
    case isTrue hdir =>
      have hparent_aux : getNodeAux st.root init = some parent := by
        rw [← lookupSegs_mkPath st init hgi, ← getNode_eq_aux]
        exact hpar
      rw [if_pos hdir]
      split at hw
      next existing hex =>
        split at hw
        case isTrue hef =>
          rw [if_pos hef]
          set newRoot := updateAt st.root (lookupSegs st (mkPath init))
            (fun q => q.withChildren (mapModify q.children l
              (fun ex => FileNode.mk ex.type ex.name s ex.children)))
            with hnewRoot
          have hnew_aux : getNodeAux newRoot init =
              some (parent.withChildren (mapModify parent.children l
                (fun ex => FileNode.mk ex.type ex.name s ex.children))) := by
            rw [hnewRoot, lookupSegs_mkPath st init hgi]
            exact getNodeAux_updateAt st.root init _ parent hparent_aux
          have hlk : lookupSegs (⟨newRoot, st.currentPath⟩ : VFSState) p
              = init ++ [l] := by
            rw [lookupSegs_eq_of_currentPath ⟨newRoot, st.currentPath⟩ st rfl]
            exact lookupSegs_eq st p (init ++ [l]) hg hres
          have hget : getNode (⟨newRoot, st.currentPath⟩ : VFSState) p =
              some (FileNode.mk existing.type existing.name s
                existing.children) := by
            rw [getNode_eq_aux, hlk, getNodeAux_append, hnew_aux]
            show getNodeAux (parent.withChildren (mapModify parent.children l
              (fun ex => FileNode.mk ex.type ex.name s ex.children))) [l]
              = _
            rw [getNodeAux_cons, children_withChildren,
              mapGet_mapModify_self, hex]
            rfl
          simp only [VFS.readFile, hget]
          rw [if_pos (by rw [FileNode.type]; exact hef)]
          rw [FileNode.content]
        case isFalse hef => simp at hw
      next hex =>
        set newRoot := updateAt st.root (lookupSegs st (mkPath init))
          (fun q => q.withChildren (mapSet q.children l
            (createNode .file l s))) with hnewRoot
        have hnew_aux : getNodeAux newRoot init =
            some (parent.withChildren (mapSet parent.children l
              (createNode .file l s))) := by
          rw [hnewRoot, lookupSegs_mkPath st init hgi]
          exact getNodeAux_updateAt st.root init _ parent hparent_aux
        have hlk : lookupSegs (⟨newRoot, st.currentPath⟩ : VFSState) p
            = init ++ [l] := by
          rw [lookupSegs_eq_of_currentPath ⟨newRoot, st.currentPath⟩ st rfl]
          exact lookupSegs_eq st p (init ++ [l]) hg hres
        have hget : getNode (⟨newRoot, st.currentPath⟩ : VFSState) p =
            some (createNode .file l s) := by
          rw [getNode_eq_aux, hlk, getNodeAux_append, hnew_aux]
          show getNodeAux (parent.withChildren (mapSet parent.children l
            (createNode .file l s))) [l] = _
          rw [getNodeAux_cons, children_withChildren, mapGet_mapSet_self]
          rfl
        simp only [VFS.readFile, hget]
        rfl
    case isFalse hdir => simp at hw

/-! ## Claim theorems: VFS -/

/-- C2 (corrected): whenever `VFS.rm(path, recursive)` returns true *and
the path does not resolve to the root `/`*, the removed node was actually
detached — `getNode(path)` is null afterwards; and `rm(path, false)`
returns false with the tree unchanged whenever the path resolves to a
directory with at least one child.  The original claim fails at the root
path (see the counterexample). -/
theorem claim_C2 (st : VFSState) (p : Str) (r : Bool)
    (hwf : st.root.wf = true) :
    ((VFS.rm st p r).1 = true → resolvePath st p ≠ str "/" →
      getNode (VFS.rm st p r).2 p = none) ∧
    (isNonemptyDir (getNode st p) = true →
      VFS.rm st p false = (false, st)) :=
  rm_spec st p r hwf

/-- C2 counterexample: on the freshly initialized VFS, `rm("/", true)`
returns true, yet nothing was detached — `getNode("/")` still finds the
root afterwards. -/
theorem claim_C2_counterexample :
    (VFS.rm VFS.init (str "/") true).1 = true ∧
    (getNode (VFS.rm VFS.init (str "/") true).2 (str "/")).isSome = true := by
  exact ⟨rfl, rfl⟩

/-- C2 witness: both parts of `claim_C2` at concrete inputs on the
freshly initialized VFS. -/
theorem claim_C2_witness :
    getNode (VFS.rm VFS.init (str "/home/guest/readme.txt") false).2
      (str "/home/guest/readme.txt") = none ∧
    VFS.rm VFS.init (str "/home/guest") false = (false, VFS.init) := by
  constructor
  · exact (claim_C2 VFS.init (str "/home/guest/readme.txt") false
      (by decide)).1 (by decide) (by decide)
  · exact (claim_C2 VFS.init (str "/home/guest") false (by decide)).2
      (by decide)

/-- C4 (confirmed): `resolvePath` normalizes by splitting on `/`,
dropping empty and `.` segments and popping the last retained segment for
each `..` (`claimNormalize` restates this algorithm from the claim's
words and agrees with the source's `normalizePath` on every input, so
popping past the root is a total no-op); with current directory `/a/b`,
`resolvePath("..")` is `/a`, and with current directory `/`,
`resolvePath("..")` is `/`. -/
theorem claim_C4 :
    (∀ p : Str, normalizePath p = claimNormalize p) ∧
    resolvePath ⟨createNode .directory [], str "/a/b"⟩ (str "..") = str "/a" ∧
    resolvePath ⟨createNode .directory [], str "/"⟩ (str "..") = str "/" := by
  refine ⟨fun p => rfl, by decide, by decide⟩

/-- C5 (corrected): after a successful `writeFile(p, s)`, `readFile(p)`
returns exactly `s` — *provided `p` does not resolve to the root `/`*.
The original unrestricted claim fails at the root (see the
counterexample). -/
theorem claim_C5 (st : VFSState) (p s : Str)
    (hroot : resolvePath st p ≠ str "/")
    (hw : (VFS.writeFile st p s).1 = true) :
    VFS.readFile (VFS.writeFile st p s).2 p = some s :=
  writeFile_readFile st p s hroot hw

/-- C5 counterexample: on the freshly initialized VFS,
`writeFile("/", "hi")` reports success, yet `readFile("/")` returns null,
not `"hi"`. -/
theorem claim_C5_counterexample :
    (VFS.writeFile VFS.init (str "/") (str "hi")).1 = true ∧
    VFS.readFile (VFS.writeFile VFS.init (str "/") (str "hi")).2 (str "/")
      = none := by
  exact ⟨rfl, rfl⟩

/-- C5 witness: the amended round-trip at a concrete file. -/
theorem claim_C5_witness :
    VFS.readFile
      (VFS.writeFile VFS.init (str "/home/guest/new.txt") (str "hello")).2
      (str "/home/guest/new.txt") = some (str "hello") :=
  claim_C5 VFS.init (str "/home/guest/new.txt") (str "hello")
    (by decide) (by decide)

/-- C6 (confirmed): path resolution is idempotent — for every path string
and every VFS state, `resolvePath(resolvePath(p))` equals
`resolvePath(p)`. -/
theorem claim_C6 : ∀ (st : VFSState) (p : Str),
    resolvePath st (resolvePath st p) = resolvePath st p :=
  resolvePath_resolvePath

/-! ## Lemmas: node names along a lookup -/

theorem namesOk_children (n : FileNode) :
    n.namesOk = FileNode.namesOkChildren n.children := by
  cases n
  rfl

theorem namesOkChildren_mem (cs : List (Str × FileNode)) (k : Str)
    (c : FileNode) (h : FileNode.namesOkChildren cs = true)
    (hm : (k, c) ∈ cs) : k = c.name ∧ c.namesOk = true := by
  induction cs with
  | nil => simp at hm
  | cons hd rest ih =>
    obtain ⟨k1, c1⟩ := hd
    rw [FileNode.namesOkChildren] at h
    have h1 := Bool.and_eq_true_iff.mp h
    have h2 := Bool.and_eq_true_iff.mp h1.1
    rcases List.mem_cons.mp hm with hx | hx
    · cases hx
      exact ⟨of_decide_eq_true h2.1, h2.2⟩
    · exact ih h1.2 hx

theorem getNodeAux_name_ne_nil (segs : List Str) (n m : FileNode)
    (hok : n.namesOk = true) (hs : ∀ s ∈ segs, s ≠ []) (hne : segs ≠ [])
    (h : getNodeAux n segs = some m) : m.name ≠ [] := by
  induction segs generalizing n with
  | nil => exact absurd rfl hne
  | cons s rest ih =>
    rw [getNodeAux_cons] at h
    cases hg : mapGet n.children s with
    | none => rw [hg] at h; exact absurd h (by simp)
    | some c =>
      rw [hg] at h
      have hmem := mapGet_mem n.children s c hg
      have hokc := namesOkChildren_mem n.children s c
        (by rw [← namesOk_children]; exact hok) hmem
      cases rest with
      | nil =>
        simp [getNodeAux] at h
        subst h
        rw [← hokc.1]
        exact hs s (List.mem_cons_self s [])
      | cons t ts =>
        exact ih c hokc.2
          (fun x hx => hs x (List.mem_cons_of_mem s hx)) (by simp) h

/-- The `mkdir` operation depends on its path argument only through the resolved
path. -/
theorem mkdir_congr (st : VFSState) (p q : Str)
    (h : resolvePath st p = resolvePath st q) :
    VFS.mkdir st p = VFS.mkdir st q := by
  unfold VFS.mkdir lookupSegs
  rw [h]

/-! ## Claim theorem: C9 -/

/-- C9 (confirmed): `mkdir` on any path resolving to `/` returns true and
inserts a directory node under the empty name into the root's child map;
that node is unreachable by `getNode` for every path string, and a second
identical call returns false. -/
theorem claim_C9 (p : Str) (hres : resolvePath VFS.init p = str "/") :
    (VFS.mkdir VFS.init p).1 = true ∧
    mapGet (VFS.mkdir VFS.init p).2.root.children [] = some phantomDir ∧
    (∀ q : Str, getNode (VFS.mkdir VFS.init p).2 q ≠ some phantomDir) ∧
    (VFS.mkdir (VFS.mkdir VFS.init p).2 p).1 = false := by
  have hcongr : VFS.mkdir VFS.init p = VFS.mkdir VFS.init (str "/") :=
    mkdir_congr VFS.init p (str "/")
      (by rw [hres]; exact (by decide : resolvePath VFS.init (str "/")
        = str "/").symm)
  rw [hcongr]
  refine ⟨rfl, rfl, ?_, ?_⟩
  · intro q hq
    by_cases hq0 : resolvePath (VFS.mkdir VFS.init (str "/")).2 q = str "/"
    · have hroot : getNode (VFS.mkdir VFS.init (str "/")).2 q
          = some (VFS.mkdir VFS.init (str "/")).2.root := by
        unfold getNode
        rw [if_pos hq0]
      rw [hroot] at hq
      have hch := congrArg FileNode.children (Option.some.inj hq)
      have : phantomDir.children = [] := rfl
      rw [this] at hch
      have hne : (VFS.mkdir VFS.init (str "/")).2.root.children.isEmpty
          = false := rfl
      rw [hch] at hne
      simp at hne
    · obtain ⟨segs, hg, hresq⟩ :=
        resolvePath_form (VFS.mkdir VFS.init (str "/")).2 q
      have hsegs_ne : segs ≠ [] := by
        intro h0
        exact hq0 (by rw [hresq, h0]; rfl)
      have hlook : getNode (VFS.mkdir VFS.init (str "/")).2 q =
          getNodeAux (VFS.mkdir VFS.init (str "/")).2.root segs := by
        rw [getNode_eq_aux,
          lookupSegs_eq (VFS.mkdir VFS.init (str "/")).2 q segs hg hresq]
      rw [hlook] at hq
      have hname := getNodeAux_name_ne_nil segs
        (VFS.mkdir VFS.init (str "/")).2.root phantomDir
        (by rfl) (fun s hs => (hg s hs).1) hsegs_ne hq
      exact hname rfl
  · have hcwd : (VFS.mkdir VFS.init (str "/")).2.currentPath
        = VFS.init.currentPath := rfl
    have hres2 : resolvePath (VFS.mkdir VFS.init (str "/")).2 p
        = resolvePath (VFS.mkdir VFS.init (str "/")).2 (str "/") := by
      rw [resolvePath_eq_of_currentPath _ VFS.init hcwd p,
        resolvePath_eq_of_currentPath _ VFS.init hcwd (str "/")]
      rw [hres]
      exact (by decide : resolvePath VFS.init (str "/") = str "/").symm
    rw [mkdir_congr _ p (str "/") hres2]
    rfl

/-- C9 witness: the concrete call with the literal path `/`. -/
theorem claim_C9_witness :
    (VFS.mkdir VFS.init (str "/")).1 = true ∧
    getNode (VFS.mkdir VFS.init (str "/")).2 (str "/tmp") ≠ some phantomDir ∧
    (VFS.mkdir (VFS.mkdir VFS.init (str "/")).2 (str "/")).1 = false := by
  have h := claim_C9 (str "/") (by decide)
  exact ⟨h.1, h.2.2.1 (str "/tmp"), h.2.2.2⟩

/-! ## Lemmas: tokenizer and dispatcher -/

theorem splitOnChar_headD (sep : Char) (s : Str) :
    (splitOnChar sep s).headD [] = s.takeWhile (fun c => c ≠ sep) := by
  induction s with
  | nil => rfl
  | cons c r ih =>
    by_cases hc : c = sep
    · subst hc
      rw [splitOnChar_sep]
      simp [List.takeWhile]
    · rw [splitOnChar_cons_ne sep c r hc]
      simp only [List.headD_cons]
      rw [List.takeWhile_cons_of_pos (by simp [hc])]
      rw [ih]

theorem isIdent_split_head_false (t : Str) (ht : t ≠ [])
    (hg : ¬ identStart (t.headD ' ') = true) :
    isIdent ((splitOnChar '=' t).headD []) = false := by
  rw [splitOnChar_headD]
  cases t with
  | nil => exact absurd rfl ht
  | cons c rest =>
    simp only [List.headD_cons] at hg
    by_cases hc : c = '='
    · rw [List.takeWhile_cons_of_neg (by simp [hc])]
      rfl
    · rw [List.takeWhile_cons_of_pos (by simp [hc])]
      unfold isIdent
      simp [hg]

/-- The persistent environment-assignment branch of `CLI.execute` is dead
code: its guard requires the trimmed line *not* to start with an
identifier character, while the inner check requires the variable name —
a prefix of that same line — to be a valid identifier. -/
theorem execute_env_unchanged (commands : List Str)
    (env : List (Str × Str)) (input : Str) :
    execEnv (CLI.execute commands env input) = env := by
  unfold CLI.execute
  by_cases h0 : (jsTrim input).isEmpty = true
  · rw [if_pos h0]
    rfl
  · rw [if_neg h0]
    by_cases h1 : (parseInput
        (match assignMatch (jsTrim input) with
          | some (_, _, r) => r
          | none => jsTrim input)).command.isEmpty = true
    · rw [if_pos h1]
      rfl
    · rw [if_neg h1]
      have hassigned :
          (if (jsTrim input).contains '=' = true ∧
              ¬ identStart ((jsTrim input).headD ' ') = true then
            if ¬ ((splitOnChar '=' (jsTrim input)).tail).isEmpty = true ∧
                isIdent ((splitOnChar '=' (jsTrim input)).headD []) = true then
              some (mapSet env ((splitOnChar '=' (jsTrim input)).headD [])
                (stripQuotes (joinEq ((splitOnChar '=' (jsTrim input)).tail))))
            else none
          else none) = none := by
        by_cases hg : (jsTrim input).contains '=' = true ∧
            ¬ identStart ((jsTrim input).headD ' ') = true
        · rw [if_pos hg]
          rw [if_neg]
          intro hx
          have := isIdent_split_head_false (jsTrim input)
            (fun he => h0 (by rw [he]; rfl)) hg.2
          rw [this] at hx
          exact absurd hx.2 (by simp)
        · rw [if_neg hg]
      rw [hassigned]
      by_cases h2 : (parseInput
          (match assignMatch (jsTrim input) with
            | some (_, _, r) => r
            | none => jsTrim input)).command ∈ commands
      · rw [if_pos h2]
        rfl
      · rw [if_neg h2]
        rfl

/-! ## Claim theorems: dispatcher -/

/-- C8 (confirmed): for every dispatched line whose command name is
non-empty and not present in the registry, `CLI.execute` emits exactly
one error line `<name>: command not found` to the output sink and returns
exit status 127 with the environment untouched.  (No line is ever handled
as a persistent environment assignment — that branch is dead code, see
`execute_env_unchanged` — so the claim's side condition always holds.) -/
theorem claim_C8 (commands : List Str) (env : List (Str × Str))
    (input : Str) (hne : dispatchedCommand input ≠ [])
    (hunk : dispatchedCommand input ∉ commands) :
    CLI.execute commands env input =
      .ret 127 [dispatchedCommand input ++ str ": command not found"] env := by
  unfold dispatchedCommand at hne hunk ⊢
  unfold CLI.execute
  by_cases h0 : (jsTrim input).isEmpty = true
  · exfalso
    apply hne
    have ht : jsTrim input = [] := by
      cases hx : jsTrim input
      · rfl
      · rw [hx] at h0; simp at h0
    rw [ht]
    rfl
  · rw [if_neg h0]
    rw [if_neg (by
      intro hx
      apply hne
      cases hy : (parseInput
          (match assignMatch (jsTrim input) with
            | some (_, _, r) => r
            | none => jsTrim input)).command
      · rfl
      · rw [hy] at hx; simp at hx)]
    have hassigned :
        (if (jsTrim input).contains '=' = true ∧
            ¬ identStart ((jsTrim input).headD ' ') = true then
          if ¬ ((splitOnChar '=' (jsTrim input)).tail).isEmpty = true ∧
              isIdent ((splitOnChar '=' (jsTrim input)).headD []) = true then
            some (mapSet env ((splitOnChar '=' (jsTrim input)).headD [])
              (stripQuotes (joinEq ((splitOnChar '=' (jsTrim input)).tail))))
          else none
        else none) = none := by
      by_cases hg : (jsTrim input).contains '=' = true ∧
          ¬ identStart ((jsTrim input).headD ' ') = true
      · rw [if_pos hg]
        rw [if_neg]
        intro hx
        have := isIdent_split_head_false (jsTrim input)
          (fun he => h0 (by rw [he]; rfl)) hg.2
        rw [this] at hx
        exact absurd hx.2 (by simp)
      · rw [if_neg hg]
    rw [hassigned]
    rw [if_neg hunk]

/-- C8 witness: the spec's own example `unknown-cmd` against the built-in
registry. -/
theorem claim_C8_witness :
    CLI.execute builtinNames [] (str "unknown-cmd") =
      .ret 127 [str "unknown-cmd: command not found"] [] := by
  have h := claim_C8 builtinNames [] (str "unknown-cmd")
    (by decide) (by decide)
  rw [h]
  rfl

/-- C1 (code_bug): the spec says a whole trimmed line of the shape
`NAME=value` is stored in the global environment with status 0 and no
command run.  The code instead dispatches the line as a command name:
`FOO=bar` produces the error line `FOO=bar: command not found` and status
127, and — second conjunct — no input whatsoever ever changes the global
environment, because the assignment branch's guard
(`!trimmed.match(/^[A-Za-z_]/)`) contradicts its inner identifier test
(dead code, clearly a slipped negation given the branch's own comment and
the spec). -/
theorem claim_C1 :
    (∀ env : List (Str × Str),
      CLI.execute builtinNames env (str "FOO=bar") =
        .ret 127 [str "FOO=bar: command not found"] env) ∧
    (∀ (commands : List Str) (env : List (Str × Str)) (input : Str),
      execEnv (CLI.execute commands env input) = env) :=
  ⟨fun _ => rfl, execute_env_unchanged⟩

/-! ## Claim theorem: tokenizer / parseInput -/

theorem parseLoop_eq (ts : List Str) (args flags : List Str) :
    parseLoop ts args flags =
      (args ++ ts.filter (fun t => ! isFlagToken t), claimFlagsFrom flags ts) := by
  induction ts generalizing args flags with
  | nil => simp [parseLoop, claimFlagsFrom]
  | cons t rest ih =>
    by_cases h1 : t.take 2 = str "--"
    · have hf : isFlagToken t = true := by
        unfold isFlagToken
        exact decide_eq_true (Or.inl h1)
      rw [parseLoop, claimFlagsFrom]
      rw [if_pos h1, if_pos h1, ih]
      simp [hf]
    · by_cases h2 : t.take 1 = str "-" ∧ 1 < t.length
      · have hf : isFlagToken t = true := by
          unfold isFlagToken
          exact decide_eq_true (Or.inr h2)
        rw [parseLoop, claimFlagsFrom]
        rw [if_neg h1, if_neg h1, if_pos h2, if_pos h2, ih]
        simp [hf]
      · have hf : isFlagToken t = false := by
          unfold isFlagToken
          rw [decide_eq_false_iff_not]
          intro hx
          rcases hx with hx | hx
          · exact h1 hx
          · exact h2 hx
        rw [parseLoop, claimFlagsFrom]
        rw [if_neg h1, if_neg h1, if_neg h2, if_neg h2, ih]
        simp [hf]

/-- C7 (confirmed): `mkdir "my dir"` tokenizes to the command `mkdir`
with the single positional argument `my dir` and no flags; `rm -rf /tmp/x`
yields the command `rm`, flags `r`, `f` and the positional argument
`/tmp/x`; and in general a `--name` token becomes the long flag `name`, a
`-xyz` token of length above one becomes one short flag per trailing
character, and every other token after the command is kept as a
positional argument in order (`isFlagToken`/`claimFlagsFrom` restate the
claim's classification). -/
theorem claim_C7 :
    parseInput (str "mkdir \"my dir\"") =
      ⟨str "mkdir", [str "my dir"], []⟩ ∧
    parseInput (str "rm -rf /tmp/x") =
      ⟨str "rm", [str "/tmp/x"], [str "r", str "f"]⟩ ∧
    ∀ input : Str, parseInput input =
      ⟨(tokenize input).headD [],
        ((tokenize input).tail).filter (fun t => ! isFlagToken t),
        claimFlagsFrom [] (tokenize input).tail⟩ := by
  refine ⟨by decide, by decide, fun input => ?_⟩
  simp only [parseInput]
  rw [parseLoop_eq, List.nil_append]

/-! ## Lemmas: line editor dispatch -/

theorem handleInput_enter (f : Str → List Str) (st : ShellState)
    (hp : st.isProcessing = false) :
    handleInput f (str "\r") st = executeCommand st := by
  unfold handleInput
  rw [if_neg (by simp [hp]), if_pos rfl]

theorem handleInput_up (f : Str → List Str) (st : ShellState)
    (hp : st.isProcessing = false) :
    handleInput f (esc :: str "[A") st = handleHistoryUp st := by
  unfold handleInput
  rw [if_neg (by simp [hp]), if_neg (by decide), if_neg (by decide),
    if_neg (by decide), if_pos rfl]

theorem getD_concat_length (l : List Str) (a : Str) :
    (l ++ [a]).getD l.length [] = a := by
  induction l with
  | nil => rfl
  | cons x xs ih =>
    rw [List.cons_append, List.length_cons, List.getD_cons_succ]
    exact ih

/-- What one history-up does right after a commit left the browse cursor
at -1 with a non-empty history. -/
theorem historyUp_after_commit (st1 : ShellState) (old : List Str)
    (cmd : Str) (h1 : st1.commandHistory = old ++ [cmd])
    (h2 : st1.historyIndex = -1) :
    (handleHistoryUp st1).inputBuffer = cmd := by
  unfold handleHistoryUp
  rw [h1, h2]
  have hlen : ((old ++ [cmd]).length : Int) - 1 = (old.length : Int) := by
    simp
  rw [if_pos (by rw [hlen]; omega)]
  have hidx : (((old ++ [cmd]).length : Int) - 1 - (-1 + 1)).toNat
      = old.length := by
    rw [hlen]
    omega
  simp only [hidx]
  exact getD_concat_length old cmd

/-! ## Claim theorems: line editor commit/history (C3) -/

/-- C3 counterexample: committing the buffer `" ls"` (leading space, as
typed) stores the TRIMMED text `ls` in the history, not the buffer
verbatim as the claim demands. -/
theorem claim_C3_counterexample :
    (handleInput (fun _ => []) (str "\r")
      ⟨str " ls", 3, [], -1, false⟩).commandHistory = [str "ls"] ∧
    (handleInput (fun _ => []) (str "\r")
      ⟨str " ls", 3, [], -1, false⟩).commandHistory ≠ [str " ls"] := by
  exact ⟨rfl, by decide⟩

/-- C3 (corrected): on commit (carriage return), when the *trimmed*
buffer is non-empty, the editor appends the *trimmed* buffer — not the
verbatim buffer content — to the command history, resets the
history-browse cursor to -1, and pressing history-up once immediately
afterwards restores exactly that trimmed text.  (The source trims before
the emptiness test and pushes the trimmed string.) -/
theorem claim_C3 (f : Str → List Str) (st : ShellState)
    (hp : st.isProcessing = false)
    (hne : jsTrim st.inputBuffer ≠ []) :
    (handleInput f (str "\r") st).commandHistory
        = st.commandHistory ++ [jsTrim st.inputBuffer] ∧
    (handleInput f (str "\r") st).historyIndex = -1 ∧
    (handleInput f (esc :: str "[A") (handleInput f (str "\r") st)).inputBuffer
        = jsTrim st.inputBuffer := by
  rw [handleInput_enter f st hp]
  have hcond : ¬ (jsTrim st.inputBuffer).isEmpty = true := by
    intro hx
    apply hne
    cases hy : jsTrim st.inputBuffer
    · rfl
    · rw [hy] at hx; simp at hx
  have hkey : (executeCommand st).commandHistory
        = st.commandHistory ++ [jsTrim st.inputBuffer] ∧
      (executeCommand st).historyIndex = -1 ∧
      (executeCommand st).isProcessing = false := by
    unfold executeCommand
    rw [if_pos hcond]
    by_cases hex : jsTrim st.inputBuffer = str "exit"
    · rw [if_pos hex]
      exact ⟨rfl, rfl, hp⟩
    · rw [if_neg hex]
      exact ⟨rfl, rfl, rfl⟩
  refine ⟨hkey.1, hkey.2.1, ?_⟩
  rw [handleInput_up f (executeCommand st) hkey.2.2]
  exact historyUp_after_commit (executeCommand st) st.commandHistory
    (jsTrim st.inputBuffer) hkey.1 hkey.2.1

/-- C3 witness: the amended behaviour at the concrete buffer `" ls"`. -/
theorem claim_C3_witness :
    (handleInput (fun _ => []) (str "\r")
      ⟨str " ls", 3, [], -1, false⟩).commandHistory = [str "ls"] ∧
    (handleInput (fun _ => []) (esc :: str "[A")
      (handleInput (fun _ => []) (str "\r")
        ⟨str " ls", 3, [], -1, false⟩)).inputBuffer = str "ls" := by
  have h := claim_C3 (fun _ => []) ⟨str " ls", 3, [], -1, false⟩
    (by decide) (by decide)
  exact ⟨h.1, h.2.2⟩

/-! ## Lemmas: editor invariant preservation per handler (C10) -/

theorem inv_insertChar (st : ShellState) (c : Char) (rest : Str)
    (h : EditorInv st) : EditorInv (insertChar st (c :: rest)) := by
  obtain ⟨h1, h2, h3⟩ := h
  refine ⟨?_, h2, h3⟩
  simp only [insertChar, List.length_append, List.length_cons,
    List.length_take, List.length_drop]
  omega

theorem inv_handleBackspace (st : ShellState) (h : EditorInv st) :
    EditorInv (handleBackspace st) := by
  obtain ⟨h1, h2, h3⟩ := h
  unfold handleBackspace
  by_cases hc : 0 < st.cursorPosition
  · rw [if_pos hc]
    refine ⟨?_, h2, h3⟩
    simp only [List.length_append, List.length_take, List.length_drop]
    omega
  · rw [if_neg hc]
    exact ⟨h1, h2, h3⟩

theorem inv_handleDelete (st : ShellState) (h : EditorInv st) :
    EditorInv (handleDelete st) := by
  obtain ⟨h1, h2, h3⟩ := h
  unfold handleDelete
  by_cases hc : st.cursorPosition < st.inputBuffer.length
  · rw [if_pos hc]
    refine ⟨?_, h2, h3⟩
    simp only [List.length_append, List.length_take, List.length_drop]
    omega
  · rw [if_neg hc]
    exact ⟨h1, h2, h3⟩

theorem inv_handleCursorLeft (st : ShellState) (h : EditorInv st) :
    EditorInv (handleCursorLeft st) := by
  obtain ⟨h1, h2, h3⟩ := h
  unfold handleCursorLeft
  by_cases hc : 0 < st.cursorPosition
  · rw [if_pos hc]
    exact ⟨by simp; omega, h2, h3⟩
  · rw [if_neg hc]
    exact ⟨h1, h2, h3⟩

theorem inv_handleCursorRight (st : ShellState) (h : EditorInv st) :
    EditorInv (handleCursorRight st) := by
  obtain ⟨h1, h2, h3⟩ := h
  unfold handleCursorRight
  by_cases hc : st.cursorPosition < st.inputBuffer.length
  · rw [if_pos hc]
    exact ⟨by simp; omega, h2, h3⟩
  · rw [if_neg hc]
    exact ⟨h1, h2, h3⟩

theorem inv_handleHome (st : ShellState) (h : EditorInv st) :
    EditorInv (handleHome st) :=
  ⟨by simp [handleHome], h.2.1, h.2.2⟩

theorem inv_handleEnd (st : ShellState) (h : EditorInv st) :
    EditorInv (handleEnd st) :=
  ⟨by simp [handleEnd], h.2.1, h.2.2⟩

theorem inv_handleHistoryUp (st : ShellState) (h : EditorInv st) :
    EditorInv (handleHistoryUp st) := by
  obtain ⟨h1, h2, h3⟩ := h
  unfold handleHistoryUp
  by_cases hc : st.historyIndex < (st.commandHistory.length : Int) - 1
  · rw [if_pos hc]
    exact ⟨le_refl _, by dsimp only; omega, by dsimp only; omega⟩
  · rw [if_neg hc]
    exact ⟨h1, h2, h3⟩

theorem inv_handleHistoryDown (st : ShellState) (h : EditorInv st) :
    EditorInv (handleHistoryDown st) := by
  obtain ⟨h1, h2, h3⟩ := h
  unfold handleHistoryDown
  by_cases hc : 0 < st.historyIndex
  · rw [if_pos hc]
    exact ⟨le_refl _, by dsimp only; omega, by dsimp only; omega⟩
  · rw [if_neg hc]
    by_cases hz : st.historyIndex = 0
    · rw [if_pos hz]
      exact ⟨by simp, by simp, by dsimp only; omega⟩
    · rw [if_neg hz]
      exact ⟨h1, h2, h3⟩

theorem inv_handleTab (f : Str → List Str) (st : ShellState)
    (h : EditorInv st) : EditorInv (handleTab f st) := by
  obtain ⟨h1, h2, h3⟩ := h
  unfold handleTab
  by_cases hc : (f st.inputBuffer).length = 1
  · rw [if_pos hc]
    exact ⟨le_refl _, h2, h3⟩
  · rw [if_neg hc]
    exact ⟨h1, h2, h3⟩

theorem inv_clearLine (st : ShellState) (h : EditorInv st) :
    EditorInv (clearLine st) :=
  ⟨by simp [clearLine], h.2.1, h.2.2⟩

theorem inv_executeCommand (st : ShellState) (h : EditorInv st) :
    EditorInv (executeCommand st) := by
  obtain ⟨h1, h2, h3⟩ := h
  unfold executeCommand
  by_cases hc : ¬ (jsTrim st.inputBuffer).isEmpty = true
  · rw [if_pos hc]
    by_cases hex : jsTrim st.inputBuffer = str "exit"
    · rw [if_pos hex]
      refine ⟨h1, by simp, ?_⟩
      simp only [List.length_append]
      omega
    · rw [if_neg hex]
      refine ⟨by simp, by simp, ?_⟩
      simp only [List.length_append]
      omega
  · rw [if_neg hc]
    exact ⟨by simp, h2, h3⟩

/-- C10 (confirmed): processing any single input event from any state
satisfying the editor invariant — cursor within the buffer and history
index between -1 and the last history slot — yields a state that
satisfies it again; every event handler preserves the invariant (the
lower bound `0 ≤ cursorPosition` is enforced by the `Nat` type, faithful
because the source guards every decrement). -/
theorem claim_C10 (f : Str → List Str) (data : Str) (st : ShellState)
    (h : EditorInv st) : EditorInv (handleInput f data st) := by
  unfold handleInput
  by_cases h1 : st.isProcessing = true
  · rw [if_pos h1]
    exact h
  · rw [if_neg h1]
    by_cases h2 : data = str "\r"
    · rw [if_pos h2]
      exact inv_executeCommand st h
    · rw [if_neg h2]
      by_cases h3 : data = [Char.ofNat 127] ∨ data = [Char.ofNat 8]
      · rw [if_pos h3]
        exact inv_handleBackspace st h
      · rw [if_neg h3]
        by_cases h4 : data = esc :: str "[3~"
        · rw [if_pos h4]
          exact inv_handleDelete st h
        · rw [if_neg h4]
          by_cases h5 : data = esc :: str "[A"
          · rw [if_pos h5]
            exact inv_handleHistoryUp st h
          · rw [if_neg h5]
            by_cases h6 : data = esc :: str "[B"
            · rw [if_pos h6]
              exact inv_handleHistoryDown st h
            · rw [if_neg h6]
              by_cases h7 : data = esc :: str "[C"
              · rw [if_pos h7]
                exact inv_handleCursorRight st h
              · rw [if_neg h7]
                by_cases h8 : data = esc :: str "[D"
                · rw [if_pos h8]
                  exact inv_handleCursorLeft st h
                · rw [if_neg h8]
                  by_cases h9 : data = esc :: str "[H" ∨ data = [Char.ofNat 1]
                  · rw [if_pos h9]
                    exact inv_handleHome st h
                  · rw [if_neg h9]
                    by_cases h10 : data = esc :: str "[F" ∨ data = [Char.ofNat 5]
                    · rw [if_pos h10]
                      exact inv_handleEnd st h
                    · rw [if_neg h10]
                      by_cases h11 : data = [Char.ofNat 12]
                      · rw [if_pos h11]
                        exact h
                      · rw [if_neg h11]
                        by_cases h12 : data = str "\t"
                        · rw [if_pos h12]
                          exact inv_handleTab f st h
                        · rw [if_neg h12]
                          by_cases h13 : data = [Char.ofNat 21]
                          · rw [if_pos h13]
                            exact inv_clearLine st h
                          · rw [if_neg h13]
                            cases data with
                            | nil => exact h
                            | cons c rest =>
                              dsimp only
                              by_cases h14 : 32 ≤ c.toNat ∨ ¬ rest.isEmpty = true
                              · rw [if_pos h14]
                                exact inv_insertChar st c rest h
                              · rw [if_neg h14]
                                exact h

/-- C10 witness: one printable event on the freshly constructed
editor. -/
theorem claim_C10_witness :
    EditorInv (handleInput (fun _ => []) (str "a") ShellState.init) :=
  claim_C10 (fun _ => []) (str "a") ShellState.init
    ⟨by decide, by decide, by decide⟩

end FakeTerm
